import Mathlib

/-!
Shallow embedding of the core of the projectcoach-trainer repository
(CSV serializer and parser, seeded deterministic shuffle, session
state machine and export adapter), together with theorems settling the
specification claims.

Text is modelled as `List Char` (JavaScript strings are indexed char
sequences in the source, which scans them one character at a time).
JavaScript numbers that are used as 32-bit patterns by the xorshift
generator are modelled as `Nat` values below 2^32 with explicit
`% 4294967296` where the source relies on `ToInt32`/`ToUint32`
coercions.
-/

namespace Trainer

/-- Character sequences, the model of JavaScript strings. -/
abbrev Str := List Char

/-! ## CSV serializer (`toCSV` in the source)

Source (`src/unnamed/part_000` lines 22-30):
cells containing a comma, double quote or newline (regex `[",\n]`) are
wrapped in double quotes with internal quotes doubled (global replace of
`"` by `""`); cells of a row are joined by `,`, rows by `\n`. -/

/-- The test `/[",\n]/.test(String(cell))` of the source. -/
def needsQuote (s : Str) : Bool :=
  s.any (fun ch => ch = '"' || ch = ',' || ch = '\n')

/-- Global replacement of `"` by `""` (`String(cell).replace(/"/g, '""')`). -/
def quoteEsc : Str → Str
  | [] => []
  | c :: cs => if c = '"' then '"' :: '"' :: quoteEsc cs else c :: quoteEsc cs

/-- Encoding of one cell by `toCSV`. -/
def encodeCell (s : Str) : Str :=
  if needsQuote s then '"' :: (quoteEsc s ++ ['"']) else s

/-- The JavaScript `Array.prototype.join` with a separator
(`[].join(sep)` is the empty string). -/
def joinSep (sep : Str) : List Str → Str
  | [] => []
  | [x] => x
  | x :: y :: xs => x ++ sep ++ joinSep sep (y :: xs)

/-- Encoding of one row: cells encoded and joined by commas. -/
def encodeRow (r : List Str) : Str :=
  joinSep [','] (r.map encodeCell)

/-- The serializer `toCSV`: rows encoded and joined by newlines. -/
def toCSV (rows : List (List Str)) : Str :=
  joinSep ['\n'] (rows.map encodeRow)

/-! ## CSV tokenizer (`parseCSVStream` in the source)

Source (`src/unnamed/part_000` lines 40-57): a single left-to-right scan
with an in-quotes flag; `""` inside quotes emits a literal quote; `,`
outside quotes ends a field; `\n` or `\r` outside quotes ends a row,
which is kept only if some field is non-empty; `\r\n` is consumed as
one terminator; at end of input a pending field or row is flushed under
the same rule. -/

/-- The guard `row.some(c => c !== "")` followed by the conditional push. -/
def pushRow (rows : List (List Str)) (row : List Str) : List (List Str) :=
  if row.any (fun c => !c.isEmpty) then rows ++ [row] else rows

/-- The end-of-input flush: `if (cur.length > 0 || row.length > 0) { row.push(cur); if (row.length && row.some(c => c !== "")) rows.push(row); }`. -/
def eofFlush (cur : Str) (row : List Str) (rows : List (List Str)) : List (List Str) :=
  if cur.length > 0 || row.length > 0 then pushRow rows (row ++ [cur]) else rows

/-- The scanning loop of `parseCSVStream`: the in-quotes flag and the
text still to be consumed come first, the remaining mutable locals
(`cur`, `row`, `rows`) follow.  Each equation is one branch of the
source's `while` body:
the first equation is the end-of-input flush; the second is the
escaped-quote rule (`inQ` and the next character is also a quote:
append a literal quote, advance two); the third toggles the quote flag
on any other quote; the fourth closes a field at a comma outside
quotes; the fifth, sixth and seventh close a row at `\r\n`, `\r`, `\n`
outside quotes (consuming `\r\n` as one terminator); the last appends
the character to the current field (this also covers commas, newlines
and carriage returns inside quotes). -/
def csvGo : Bool → Str → Str → List Str → List (List Str) → List (List Str)
  | _, [], cur, row, rows => eofFlush cur row rows
  | true, '"' :: '"' :: rest, cur, row, rows => csvGo true rest (cur ++ ['"']) row rows
  | true, '"' :: rest, cur, row, rows => csvGo false rest cur row rows
  | false, '"' :: rest, cur, row, rows => csvGo true rest cur row rows
  | false, ',' :: rest, cur, row, rows => csvGo false rest [] (row ++ [cur]) rows
  | false, '\r' :: '\n' :: rest, cur, row, rows => csvGo false rest [] [] (pushRow rows (row ++ [cur]))
  | false, '\r' :: rest, cur, row, rows => csvGo false rest [] [] (pushRow rows (row ++ [cur]))
  | false, '\n' :: rest, cur, row, rows => csvGo false rest [] [] (pushRow rows (row ++ [cur]))
  | inQ, ch :: rest, cur, row, rows => csvGo inQ rest (cur ++ [ch]) row rows

/-- The tokenizer `parseCSVStream`. -/
def parseCSVStream (text : Str) : List (List Str) :=
  csvGo false text [] [] []

/-! ## Row-to-record mapping (`parseCSV` in the source)

Source (`src/unnamed/part_000` lines 59-86, identical to the module
exported at the end of `src/src/App.jsx`): the first tokenized row is
the header, matched case-insensitively after trimming; the columns
`domain`, `question`, `a`, `b`, `c`, `d`, `correct` are required (a
missing one yields the empty list); rows whose cells all trim to the
empty string are skipped, as are rows whose `correct` cell resolves to
no index or whose trimmed domain is not in the allowed set. -/

/-- JavaScript `String.prototype.trim` whitespace (the source data is
ASCII; the exotic Unicode space characters are not modelled). -/
def jsWhite (c : Char) : Bool :=
  c = ' ' || c = '\t' || c = '\n' || c = '\r' || c = '\x0b' || c = '\x0c'

/-- JavaScript `String.prototype.trim`. -/
def jsTrim (s : Str) : Str :=
  ((s.dropWhile jsWhite).reverse.dropWhile jsWhite).reverse

/-- JavaScript `String.prototype.toLowerCase` (ASCII range; the source
header and `correct` cells are ASCII). -/
def jsToLower (s : Str) : Str := s.map Char.toLower

/-- JavaScript `Array.prototype.indexOf`: the index of the first
occurrence, `-1` when absent. -/
def jsIndexOf (l : List Str) (x : Str) : Int :=
  if x ∈ l then (l.indexOf x : Int) else -1

/-- Reading `row[i] || ""`: a missing cell (column index out of range,
or `-1` from a failed header lookup) and the empty cell both give the
empty string. -/
def jsAt (row : List Str) (i : Int) : Str :=
  if 0 ≤ i then row.getD i.toNat [] else []

/-- The `toIdx` helper of `parseCSV`: lowercase and trim, map
`a`/`b`/`c`/`d` to 0-3, accept a literal single digit 0-3, otherwise
undefined. -/
def toIdx (s : Str) : Option Nat :=
  let t := jsToLower (jsTrim s)
  if t = ['a'] then some 0
  else if t = ['b'] then some 1
  else if t = ['c'] then some 2
  else if t = ['d'] then some 3
  else if t = ['0'] then some 0
  else if t = ['1'] then some 1
  else if t = ['2'] then some 2
  else if t = ['3'] then some 3
  else none

/-- The fixed allowed domain set. -/
def allowedDomains : List Str :=
  ["People".toList, "Process".toList, "Business".toList, "Agile".toList]

/-- A normalized question record, as produced by `parseCSV`. -/
structure Question where
  id : Str
  domain : Str
  question : Str
  choices : List Str
  answerIndex : Nat
  explanation : Str
  reference : Str
deriving Repr, DecidableEq

/-- The header column indices computed by `parseCSV` (`-1` for an
absent column). -/
structure HeaderIx where
  qi : Int
  di : Int
  qq : Int
  ai : Int
  bi : Int
  ci : Int
  dd : Int
  co : Int
  ex : Int
  rf : Int
deriving Repr, DecidableEq

/-- The header lookup of `parseCSV`: each cell of the first row is
trimmed and lowercased, then each column name is looked up with
`indexOf`. -/
def headerIx (hdr : List Str) : HeaderIx :=
  let H := hdr.map (fun h => jsToLower (jsTrim h))
  { qi := jsIndexOf H ("id".toList)
    di := jsIndexOf H ("domain".toList)
    qq := jsIndexOf H ("question".toList)
    ai := jsIndexOf H ("a".toList)
    bi := jsIndexOf H ("b".toList)
    ci := jsIndexOf H ("c".toList)
    dd := jsIndexOf H ("d".toList)
    co := jsIndexOf H ("correct".toList)
    ex := jsIndexOf H ("explanation".toList)
    rf := jsIndexOf H ("reference".toList) }

/-- The `required.some(i => i < 0)` check of `parseCSV`. -/
def missingRequired (cfg : HeaderIx) : Bool :=
  [cfg.di, cfg.qq, cfg.ai, cfg.bi, cfg.ci, cfg.dd, cfg.co].any (fun i => i < 0)

/-- The per-row conversion inside the `reduce` of `parseCSV`: `r` is
the zero-based index of the row within the data rows (`table.slice(1)`)
and drives the `U<r+1>` default id.  `none` models a skipped row
(entirely blank cells, unresolvable `correct` cell, or a domain outside
the allowed set). -/
def convRow (cfg : HeaderIx) (r : Nat) (row : List Str) : Option Question :=
  if row.all (fun c => (jsTrim c).isEmpty) then none
  else
    match toIdx (jsAt row cfg.co) with
    | none => none
    | some ans =>
      let dom := jsTrim (jsAt row cfg.di)
      if dom ∈ allowedDomains then
        some
          { id :=
              (fun raw => if raw.isEmpty then 'U' :: (Nat.repr (r + 1)).toList else raw)
                (if 0 ≤ cfg.qi then jsTrim (jsAt row cfg.qi) else [])
            domain := dom
            question := jsTrim (jsAt row cfg.qq)
            choices :=
              [jsTrim (jsAt row cfg.ai), jsTrim (jsAt row cfg.bi),
               jsTrim (jsAt row cfg.ci), jsTrim (jsAt row cfg.dd)]
            answerIndex := ans
            explanation := if 0 ≤ cfg.ex then jsAt row cfg.ex else []
            reference := if 0 ≤ cfg.rf then jsAt row cfg.rf else [] }
      else none

/-- The body of the source's `reduce`: push the converted record onto
the accumulator, or keep the accumulator for a skipped row. -/
def pushConv (f : α → Option β) (out : List β) (p : α) : List β :=
  match f p with
  | none => out
  | some q => out ++ [q]

/-- The parser `parseCSV`: tokenize, check the header, then fold over
the data rows exactly as the source's `reduce` does, pushing each
accepted record onto the accumulator. -/
def parseCSV (text : Str) : List Question :=
  match parseCSVStream text with
  | [] => []
  | hdr :: body =>
    let cfg := headerIx hdr
    if missingRequired cfg then []
    else body.enum.foldl (pushConv (fun p => convRow cfg p.1 p.2)) []

/-- Modelled from the spec (§4.1, "Row-to-record mapping"): the
order-preserving reading of the parser, in which the record list is the
in-order image of the accepted data rows.  Stated separately from
`parseCSV` (which mirrors the source's accumulator `reduce`) so that
order preservation is a theorem relating the two. -/
def parseCSVOrdered (text : Str) : List Question :=
  match parseCSVStream text with
  | [] => []
  | hdr :: body =>
    let cfg := headerIx hdr
    if missingRequired cfg then []
    else body.enum.filterMap (fun p => convRow cfg p.1 p.2)

/-! ## Seeded shuffle, xorshift variant (`shuffle` in `src/unnamed/part_000` lines 11-20)

The generator keeps a 32-bit state `s` (JavaScript coerces it with
`ToInt32`/`ToUint32` at every bitwise operation); it is modelled as a
`Nat` below 2^32 holding the bit pattern, with `<< k` as
`* 2^k % 2^32`, `>>> 17` as `/ 2^17` and `^` as `Nat.xor` (the pattern
of a 32-bit xor is the same whether the operands are read signed or
unsigned).  The returned fraction `(s >>> 0) / 4294967296` times
`i + 1`, floored, is exactly `s * (i + 1) / 4294967296` in natural
division (the source's floating computation is exact for the array
sizes at hand, since `s * (i + 1)` stays below 2^53). -/

/-- Truncation to a 32-bit pattern. -/
def uint32 (n : Nat) : Nat := n % 4294967296

/-- One call of the xorshift `rand`: `s ^= s << 13; s ^= s >>> 17; s ^= s << 5`. -/
def xorshiftStep (s : Nat) : Nat :=
  let s1 := s ^^^ uint32 (s * 8192)
  let s2 := s1 ^^^ (s1 / 131072)
  s2 ^^^ uint32 (s2 * 32)

/-- The swap `[a[i], a[j]] = [a[j], a[i]]` on a list, for in-range
indices (the xorshift draw always yields `j ≤ i`, both in range); an
out-of-range index leaves the list unchanged. -/
def listSwap (l : List α) (i j : Nat) : List α :=
  match l.get? i, l.get? j with
  | some x, some y => (l.set i y).set j x
  | _, _ => l

/-- The Fisher-Yates loop `for (let i = a.length - 1; i > 0; i--)`,
with `i` the loop variable: at each step the generator advances and
`j = Math.floor(rand() * (i + 1))`. -/
def fyGo (a : List α) (s : Nat) : Nat → List α
  | 0 => a
  | i + 1 =>
    let s' := xorshiftStep s
    let j := s' * (i + 2) / 4294967296
    fyGo (listSwap a (i + 1) j) s' i

/-- The xorshift `shuffle(arr, seed)`: `seed ?? Math.floor(Math.random() * 1e9)`
keeps any supplied seed (including 0) and only falls back to a fresh
random value when the seed is nullish; the fallback draw is modelled by
the explicit `entropy` argument.  The initial state is the 32-bit
pattern of the seed. -/
def shuffle (arr : List α) (seed : Option Int) (entropy : Nat) : List α :=
  let s : Nat :=
    match seed with
    | some sd => (sd % (4294967296 : Int)).toNat
    | none => uint32 entropy
  fyGo arr s (arr.length - 1)

/-! ## Seeded shuffle, LCG variant (`shuffle` in `src/src/App.jsx` lines 53-67)

This variant keeps `rand` as a full JavaScript number updated by
`rand = (rand * 16807) % 2147483647` (`%` is the truncated remainder,
`Int.tmod`), and at every iteration evaluates
`(seed ? random() : Math.random())`: a falsy seed (0) draws from
`Math.random` instead of the seeded generator.  `Math.random` is
modelled as a stream of 32-bit dyadic fractions `entropy k / 2^32`
indexed by the call count `k`.  The floor of `fraction * m` is modelled
exactly as the floor division `(rand * m).fdiv 2147483647` (the
source's floating computation agrees except for ties at the rounding
boundary, which do not affect the claims settled here).  Out-of-range
indices (possible for negative seeds, whose fractions are negative)
read as JavaScript `undefined`, so the element type is `Option α` and
a write to a negative index leaves the array elements unchanged. -/

/-- Reading `a[i]` on a JavaScript array: `undefined` (`none`) outside
the range. -/
def jsGetO (l : List (Option α)) (i : Int) : Option α :=
  if 0 ≤ i then l.getD i.toNat none else none

/-- Writing `a[i] = v`: a write outside the index range does not change
any array element (a negative index becomes a plain property).  A later
read of that same plain property, which a JavaScript engine would
serve, is not modelled: `jsGetO` yields `undefined` for every negative
index, so after a negative-index write the engine and the model can
disagree on which element reappears — under either semantics the array
no longer holds the original elements, which is all the theorems below
rely on. -/
def jsSetO (l : List (Option α)) (i : Int) (v : Option α) : List (Option α) :=
  if 0 ≤ i ∧ i.toNat < l.length then l.set i.toNat v else l

/-- The swap `[arr[m], arr[i]] = [arr[i], arr[m]]` with possibly
out-of-range `i`. -/
def jsSwapO (l : List (Option α)) (m i : Int) : List (Option α) :=
  let x := jsGetO l i
  let y := jsGetO l m
  jsSetO (jsSetO l m x) i y

/-- The `while (m)` loop of the LCG variant: the fuel is the current
value of `m`; `i = Math.floor((seed ? random() : Math.random()) * m--)`
uses the old `m` and the swap the decremented one.  `k` counts the
`Math.random` calls made so far. -/
def lcgGo (a : List (Option α)) (seed randSt : Int) (entropy : Nat → Nat) (k : Nat) :
    Nat → List (Option α)
  | 0 => a
  | m + 1 =>
    if seed ≠ 0 then
      let r := (randSt * 16807).tmod 2147483647
      let i : Int := (r * (m + 1 : Int)).fdiv 2147483647
      lcgGo (jsSwapO a (m : Int) i) seed r entropy k m
    else
      let e := uint32 (entropy k)
      let i : Int := ((e * (m + 1) / 4294967296 : Nat) : Int)
      lcgGo (jsSwapO a (m : Int) i) seed randSt entropy (k + 1) m

/-- The LCG `shuffle(array, seed)` of `App.jsx`: `rand` starts at the
seed and the loop runs from `m = arr.length` down. -/
def shuffleLCG (l : List α) (seed : Int) (entropy : Nat → Nat) : List (Option α) :=
  lcgGo (l.map some) seed seed entropy 0 l.length

/-! ## Session state machine (`src/unnamed/part_000` lines 92-205)

The React component state is modelled as a record and each event
handler as a state transition.  Within one handler invocation, reads of
a state variable see the value of the render in which the handler was
created, and the functional `setX` updates are committed in order after
the handler returns; the transitions below therefore read from the
incoming state and build the outgoing state from the queued writes.
`Date.now()` is passed in as the explicit clock argument `now`. -/

/-- The session mode select. -/
inductive Mode where
  | practice
  | exam
deriving Repr, DecidableEq

/-- A per-question result record as stored by `recordResult`. -/
structure ResultRec where
  id : Str
  firstTryCorrect : Bool
  tries : Nat
  timeMs : Nat
  chosenHistory : List Nat
deriving Repr, DecidableEq

/-- The component state relevant to the session machine. -/
structure TrainerState where
  sessionQs : List Question
  idx : Nat
  started : Bool
  finished : Bool
  eliminated : List Nat
  chosenHistory : List Nat
  firstTryCorrect : Option Bool
  results : Str → Option ResultRec
  questionStart : Option Nat

/-- The record built by `recordResult` (source lines 154-161).  The
`chosenHistory` and `questionStart` arguments are the render-time
values read by the handler: the `setChosenHistory` update queued just
before the call in `onChoice` has not been committed yet, so on a
correct practice submission the history passed here does not include
that submission.  `tries` is `Math.max(1, chosenHistory.length || 1)`
and `firstTryCorrect` is `!!(isCorrect && tries === 1)`. -/
def recordResult (q : Question) (chosenHistory : List Nat) (questionStart : Option Nat)
    (now : Nat) (isCorrect : Bool) : ResultRec :=
  let tries := max 1 (if chosenHistory.length = 0 then 1 else chosenHistory.length)
  { id := q.id
    firstTryCorrect := isCorrect && tries == 1
    tries := tries
    timeMs := match questionStart with | some t0 => now - t0 | none => 0
    chosenHistory := chosenHistory }

/-- The store `setResults(prev => ({ ...prev, [q.id]: r }))`. -/
def storeResult (results : Str → Option ResultRec) (key : Str) (r : ResultRec) :
    Str → Option ResultRec :=
  fun k => if k = key then some r else results k

/-- The `nextQuestion` transition (source lines 183-191): past the last
question the session finishes, otherwise the position advances and the
per-question transient state resets. -/
def nextQuestion (now : Nat) (st : TrainerState) : TrainerState :=
  if st.idx + 1 ≥ st.sessionQs.length then { st with started := false, finished := true }
  else
    { st with
      idx := st.idx + 1
      eliminated := []
      chosenHistory := []
      firstTryCorrect := none
      questionStart := some now }

/-- The `onChoice` transition (source lines 163-181).  In practice
mode a correct submission queues the history append, records the
result from the render-time history, and sets the first-try flag (the
delayed `setTimeout(nextQuestion, 220)` is a separate later
transition and is not part of this state change); an incorrect one
eliminates the choice and appends it to the history.  In exam mode the
single submission is recorded and `nextQuestion` runs synchronously on
the queued state. -/
def onChoice (mode : Mode) (choiceIdx : Nat) (now : Nat) (st : TrainerState) :
    TrainerState :=
  match st.sessionQs.get? st.idx with
  | none => st
  | some q =>
    let correct := q.answerIndex
    if mode = Mode.practice then
      if choiceIdx = correct then
        let res := recordResult q st.chosenHistory st.questionStart now true
        { st with
          chosenHistory := st.chosenHistory ++ [choiceIdx]
          results := storeResult st.results q.id res
          firstTryCorrect := some (st.chosenHistory.length = 0) }
      else
        { st with
          eliminated := st.eliminated ++ [choiceIdx]
          chosenHistory := st.chosenHistory ++ [choiceIdx]
          firstTryCorrect := some false }
    else
      let res := recordResult q st.chosenHistory st.questionStart now
        (decide (choiceIdx = correct))
      nextQuestion now
        { st with
          chosenHistory := [choiceIdx]
          results := storeResult st.results q.id res }

/-- The question pick of `startSession` (source lines 136-139): the
filtered pool is shuffled with the configured seed and the first
`Math.min(sessionSize, pool.length)` questions are kept.  The session
size is a natural number (the size input is a non-negative count). -/
def startSessionPick (filtered : List Question) (sessionSize : Nat) (seed : Int) :
    List Question :=
  let pool := shuffle filtered (some seed) 0
  pool.take (min sessionSize pool.length)

/-- The full `startSession` transition: install the pick and reset the
session state. -/
def startSession (filtered : List Question) (sessionSize : Nat) (seed : Int) (now : Nat)
    (st : TrainerState) : TrainerState :=
  { st with
    sessionQs := startSessionPick filtered sessionSize seed
    idx := 0
    started := true
    finished := false
    results := fun _ => none
    eliminated := []
    chosenHistory := []
    firstTryCorrect := none
    questionStart := some now }

/-! ## Per-question choice permutation (`beginSession`,
`src/unnamed/part_000` lines 812-817 legacy branch and
`src/src/App.jsx` lines 163-167)

For a legacy question the shuffled index list `idxs` (a permutation of
`[0, 1, 2, 3]`) rebuilds the choices as
`[q.choices[idxs[0]], q.choices[idxs[1]], q.choices[idxs[2]], q.choices[idxs[3]]]`
and the new answer index is `idxs.indexOf(q.answerIndex)` (JavaScript
`indexOf` yields `-1` when absent; `List.indexOf` yields the list
length instead, an unreachable case when `idxs` is a permutation of
`[0, 1, 2, 3]` and the answer index is below 4). -/

/-- The choice permutation and answer-index remap of `beginSession`. -/
def permuteQuestion (q : Question) (idxs : List Nat) : Question :=
  { q with
    choices :=
      [q.choices.getD (idxs.getD 0 0) [], q.choices.getD (idxs.getD 1 0) [],
       q.choices.getD (idxs.getD 2 0) [], q.choices.getD (idxs.getD 3 0) []]
    answerIndex := idxs.indexOf q.answerIndex }

/-! ## Export adapter (`exportSummary`, `src/unnamed/part_000` lines 195-205)

One header row plus one row per session question; a question with no
stored result renders its result columns as empty strings.  The bank
modelled here is the legacy schema produced by `parseCSV`, for which
the `isV21` test is false, the stem is `question.question` and the
correct index is `question.answerIndex`. -/

/-- `String(n)` for the numeric result fields. -/
def natStr (n : Nat) : Str := (Nat.repr n).toList

/-- `String(b)` for the boolean result field. -/
def boolStr (b : Bool) : Str := if b then "true".toList else "false".toList

/-- `r.chosenHistory.join("|")`. -/
def joinBar (l : List Nat) : Str := joinSep ['|'] (l.map natStr)

/-- The export header row. -/
def exportHeader : List Str :=
  ["id".toList, "domain".toList, "first_try_correct".toList, "tries".toList,
   "time_ms".toList, "chosen".toList, "question".toList, "correct".toList,
   "explanation".toList]

/-- One data row of `exportSummary`: `correct` is
`question?.choices?.[cIdx] ?? ""`, the literal text of the correct
choice. -/
def exportRow (results : Str → Option ResultRec) (q : Question) : List Str :=
  let correct := q.choices.getD q.answerIndex []
  match results q.id with
  | some r =>
    [q.id, q.domain, boolStr r.firstTryCorrect, natStr r.tries, natStr r.timeMs,
     joinBar r.chosenHistory, q.question, correct, q.explanation]
  | none => [q.id, q.domain, [], [], [], [], q.question, correct, q.explanation]

/-- The text handed to `download` by `exportSummary`. -/
def exportSummaryText (sessionQs : List Question) (results : Str → Option ResultRec) :
    Str :=
  toCSV (exportHeader :: sessionQs.map (exportRow results))

/-- The number of text lines of the export: newline count plus one. -/
def countLines (text : Str) : Nat := text.count '\n' + 1

/-- The required header column names of the spec. -/
def requiredNames : List Str :=
  ["domain".toList, "question".toList, "a".toList, "b".toList, "c".toList, "d".toList,
   "correct".toList]

/-- A cell that survives the round trip: a carriage return may occur
only in a cell the serializer quotes anyway. -/
abbrev okCell (cel : Str) : Prop := '\r' ∈ cel → needsQuote cel = true

/-- A row that survives the round trip: some cell is non-empty and
every cell is `okCell`. -/
abbrev okRow (r : List Str) : Prop :=
  r.any (fun c => !c.isEmpty) = true ∧ ∀ cel ∈ r, okCell cel

/-- The sample question used to evaluate the scoring transition: four
choices, correct index 2. -/
def sampleQ : Question :=
  { id := "q1".toList
    domain := "People".toList
    question := "Q".toList
    choices := ["w".toList, "x".toList, "y".toList, "z".toList]
    answerIndex := 2
    explanation := []
    reference := [] }

/-- A freshly started one-question practice session positioned on
`sampleQ`. -/
def sampleSt : TrainerState :=
  { sessionQs := [sampleQ]
    idx := 0
    started := true
    finished := false
    eliminated := []
    chosenHistory := []
    firstTryCorrect := none
    results := fun _ => none
    questionStart := some 1000 }

/-! ## Permutation properties of the swap and of the Fisher-Yates loop -/

/-- Setting index `k` to `a` and consing the old element back is a
permutation of consing `a`. -/
theorem cons_set_perm :
    ∀ (t : List α) (k : Nat) (a : α) (hk : k < t.length),
      (t.get ⟨k, hk⟩ :: t.set k a).Perm (a :: t) := by
  intro t
  induction t with
  | nil => intro k a hk; simp at hk
  | cons b t ih =>
    intro k a hk
    cases k with
    | zero => simpa using List.Perm.swap a b t
    | succ m =>
      have hm : m < t.length := by simpa using hk
      have h1 : (t.get ⟨m, hm⟩ :: b :: t.set m a).Perm (b :: t.get ⟨m, hm⟩ :: t.set m a) :=
        List.Perm.swap _ _ _
      have h2 : (b :: t.get ⟨m, hm⟩ :: t.set m a).Perm (b :: a :: t) :=
        List.Perm.cons b (ih m a hm)
      have h3 : (b :: a :: t).Perm (a :: b :: t) := List.Perm.swap _ _ _
      simpa using (h1.trans h2).trans h3

/-- Exchanging two in-range elements by a pair of `set` writes is a
permutation of the list. -/
theorem set_set_perm :
    ∀ (l : List α) (i j : Nat) (hi : i < l.length) (hj : j < l.length),
      ((l.set i (l.get ⟨j, hj⟩)).set j (l.get ⟨i, hi⟩)).Perm l := by
  intro l
  induction l with
  | nil => intro i j hi _; simp at hi
  | cons b t ih =>
    intro i j hi hj
    cases i with
    | zero =>
      cases j with
      | zero => simp
      | succ m =>
        have hm : m < t.length := by simpa using hj
        simpa using cons_set_perm t m b hm
    | succ n =>
      cases j with
      | zero =>
        have hn : n < t.length := by simpa using hi
        simpa using cons_set_perm t n b hn
      | succ m =>
        have hn : n < t.length := by simpa using hi
        have hm : m < t.length := by simpa using hj
        simpa using List.Perm.cons b (ih n m hn hm)

/-- The JavaScript swap is a permutation of the list. -/
theorem listSwap_perm (l : List α) (i j : Nat) : (listSwap l i j).Perm l := by
  rcases hi : l[i]? with _ | x
  · simp [listSwap, List.get?_eq_getElem?, hi]
  · rcases hj : l[j]? with _ | y
    · simp [listSwap, List.get?_eq_getElem?, hi, hj]
    · simp only [listSwap, List.get?_eq_getElem?, hi, hj]
      rcases List.getElem?_eq_some.mp hi with ⟨hi', rfl⟩
      rcases List.getElem?_eq_some.mp hj with ⟨hj', rfl⟩
      exact set_set_perm l i j hi' hj'

/-- The Fisher-Yates loop permutes its input. -/
theorem fyGo_perm (a : List α) (s n : Nat) : (fyGo a s n).Perm a := by
  induction n generalizing a s with
  | zero => exact List.Perm.refl a
  | succ i ih =>
    exact (ih _ _).trans (listSwap_perm a (i + 1) _)

/-- The JavaScript destructuring swap of the LCG variant is a
permutation of the list when both indices are in range. -/
theorem jsSwapO_perm (l : List (Option α)) (m i : Int) (hm0 : 0 ≤ m)
    (hm : m.toNat < l.length) (hi0 : 0 ≤ i) (hi : i.toNat < l.length) :
    (jsSwapO l m i).Perm l := by
  have h1 : jsGetO l i = l.get ⟨i.toNat, hi⟩ := by
    unfold jsGetO
    rw [if_pos hi0, List.getD_eq_getElem _ _ hi, List.get_eq_getElem]
  have h2 : jsGetO l m = l.get ⟨m.toNat, hm⟩ := by
    unfold jsGetO
    rw [if_pos hm0, List.getD_eq_getElem _ _ hm, List.get_eq_getElem]
  have h3 : jsSetO l m (l.get ⟨i.toNat, hi⟩) = l.set m.toNat (l.get ⟨i.toNat, hi⟩) := by
    unfold jsSetO
    rw [if_pos ⟨hm0, hm⟩]
  have h4 : jsSetO (l.set m.toNat (l.get ⟨i.toNat, hi⟩)) i (l.get ⟨m.toNat, hm⟩) =
      (l.set m.toNat (l.get ⟨i.toNat, hi⟩)).set i.toNat (l.get ⟨m.toNat, hm⟩) := by
    unfold jsSetO
    rw [if_pos ⟨hi0, by simpa using hi⟩]
  show (jsSetO (jsSetO l m (jsGetO l i)) i (jsGetO l m)).Perm l
  rw [h1, h2, h3, h4]
  exact set_set_perm l m.toNat i.toNat hm hi

/-- The LCG loop permutes its input whenever the generator state is
nonnegative: the drawn fraction then lies in `[0, 1)`, the floored
index stays in range, and every step is an in-range swap.  (A negative
state, reachable from a negative supplied seed, floors to a negative
index and is not covered — see the C8 counterexample.) -/
theorem lcgGo_perm :
    ∀ (m : Nat) (a : List (Option α)) (seed randSt : Int) (ent : Nat → Nat) (k : Nat),
      0 ≤ randSt → m ≤ a.length → (lcgGo a seed randSt ent k m).Perm a := by
  intro m
  induction m with
  | zero => intro a seed randSt ent k _ _; exact List.Perm.refl a
  | succ m ih =>
    intro a seed randSt ent k hr hm
    by_cases hs : seed ≠ 0
    · simp only [lcgGo, if_pos hs]
      have hr0 : 0 ≤ (randSt * 16807).tmod 2147483647 :=
        Int.tmod_nonneg _ (mul_nonneg hr (by decide))
      have hrM : (randSt * 16807).tmod 2147483647 < 2147483647 :=
        Int.tmod_lt_of_pos _ (by decide)
      have hi0 : 0 ≤ ((randSt * 16807).tmod 2147483647 * (m + 1 : Int)).fdiv 2147483647 :=
        Int.fdiv_nonneg (mul_nonneg hr0 (by positivity)) (by decide)
      have hilt :
          ((randSt * 16807).tmod 2147483647 * (m + 1 : Int)).fdiv 2147483647 <
            (m : Int) + 1 := by
        rw [Int.fdiv_eq_ediv _ (by decide), Int.ediv_lt_iff_lt_mul (by decide)]
        calc (randSt * 16807).tmod 2147483647 * (m + 1 : Int)
            < 2147483647 * ((m : Int) + 1) :=
              mul_lt_mul_of_pos_right hrM (by positivity)
          _ = ((m : Int) + 1) * 2147483647 := by ring
      have hitn :
          ((((randSt * 16807).tmod 2147483647 * (m + 1 : Int)).fdiv
              2147483647)).toNat < a.length := by
        have h1 :
            ((((randSt * 16807).tmod 2147483647 * (m + 1 : Int)).fdiv
                2147483647)).toNat < m + 1 := by
          rw [Int.toNat_lt hi0]
          exact_mod_cast hilt
        omega
      have hmtn : ((m : Int)).toNat < a.length := by
        simpa using (show m < a.length by omega)
      have hswap := jsSwapO_perm a (m : Int)
        (((randSt * 16807).tmod 2147483647 * (m + 1 : Int)).fdiv 2147483647)
        (by positivity) hmtn hi0 hitn
      refine (ih _ seed _ ent k hr0 ?_).trans hswap
      rw [hswap.length_eq]
      omega
    · simp only [lcgGo, if_neg hs]
      have he : uint32 (ent k) < 4294967296 := Nat.mod_lt _ (by decide)
      have hi0 : (0 : Int) ≤ ((uint32 (ent k) * (m + 1) / 4294967296 : Nat) : Int) := by
        positivity
      have hnat : uint32 (ent k) * (m + 1) / 4294967296 < m + 1 := by
        rw [Nat.div_lt_iff_lt_mul (by decide)]
        calc uint32 (ent k) * (m + 1) < 4294967296 * (m + 1) :=
              Nat.mul_lt_mul_of_lt_of_le he (le_refl _) (by omega)
          _ = (m + 1) * 4294967296 := by ring
      have hitn :
          (((uint32 (ent k) * (m + 1) / 4294967296 : Nat) : Int)).toNat < a.length := by
        simpa using (show uint32 (ent k) * (m + 1) / 4294967296 < a.length by omega)
      have hmtn : ((m : Int)).toNat < a.length := by
        simpa using (show m < a.length by omega)
      have hswap := jsSwapO_perm a (m : Int)
        ((uint32 (ent k) * (m + 1) / 4294967296 : Nat) : Int)
        (by positivity) hmtn hi0 hitn
      refine (ih _ seed _ ent (k + 1) hr ?_).trans hswap
      rw [hswap.length_eq]
      omega

/-- C8 (amended): the xorshift `shuffle` of `src/unnamed/part_000`
returns a list containing exactly the elements of the input (a
permutation, hence the same multiset and the same length) for every
list and every seed, supplied or drawn; the LCG `shuffle` of
`src/src/App.jsx` does so for every nonnegative supplied seed (its
output carries the `some`-wrapped input elements).  For a negative
supplied seed (truthy in JavaScript) the LCG fractions are negative,
`Math.floor` yields a negative index, and the destructuring swap
writes `undefined` into the in-range slot, losing elements — see the
counterexample.  Both sources copy the input array before mutating
(`[...arr]`, `array.slice()`); the embeddings are pure functions of
the input, so the input list itself is unmodified by construction. -/
theorem shuffle_same_elements (l : List α) (seed : Option Int) (entropy : Nat)
    (s2 : Int) (ent2 : Nat → Nat) :
    (shuffle l seed entropy).Perm l ∧ (shuffle l seed entropy).length = l.length ∧
      (0 ≤ s2 →
        (shuffleLCG l s2 ent2).Perm (l.map some) ∧
          (shuffleLCG l s2 ent2).length = l.length) := by
  have h1 : (shuffle l seed entropy).Perm l := fyGo_perm l _ _
  refine ⟨h1, h1.length_eq, fun hs2 => ?_⟩
  have h2 : (shuffleLCG l s2 ent2).Perm (l.map some) :=
    lcgGo_perm l.length (l.map some) s2 s2 ent2 0 hs2 (by simp)
  refine ⟨h2, ?_⟩
  rw [h2.length_eq, List.length_map]

/-- Witness for C8 at a concrete list and a nonnegative seed for the
LCG variant. -/
theorem shuffle_same_elements_witness :
    (0 : Int) ≤ 7 ∧
      (shuffleLCG [10, 20, 30] (7 : Int) (fun _ => 0)).Perm
        (([10, 20, 30] : List Nat).map some) :=
  ⟨by decide,
    ((shuffle_same_elements [10, 20, 30] (some 42) 0 7 (fun _ => 0)).2.2 (by decide)).1⟩

/-- Counterexample for C8 as stated: the `App.jsx` shuffle at the
supplied seed -5 on the list [10, 20] does not return the input
elements.  The first LCG draw is -84035, its fraction floors to the
index -1, and the swap writes `undefined` into the in-range slot; in
the embedding both elements are lost (a JavaScript engine returns
`[20, undefined]`, also not the same elements, the difference being
the unmodelled read-back of a negative-index property noted at
`jsSetO`). -/
theorem shuffleLCG_negative_seed_not_perm :
    ¬ (shuffleLCG [10, 20] (-5 : Int) (fun _ => 0)).Perm
        (([10, 20] : List Nat).map some) ∧
      shuffleLCG [10, 20] (-5 : Int) (fun _ => 0) = [none, none] := by
  decide

/-- Length preservation of the xorshift shuffle, shared by the session
size computation. -/
theorem shuffle_length (l : List α) (seed : Option Int) (entropy : Nat) :
    (shuffle l seed entropy).length = l.length :=
  (fyGo_perm l _ _).length_eq

/-- C6: starting a session over a filtered pool with a requested size
produces a question list whose length is the minimum of the requested
size and the pool length. -/
theorem startSession_length (filtered : List Question) (sessionSize : Nat) (seed : Int)
    (now : Nat) (st : TrainerState) :
    (startSession filtered sessionSize seed now st).sessionQs.length =
      min sessionSize filtered.length := by
  have hpool : (shuffle filtered (some seed) 0).length = filtered.length :=
    shuffle_length filtered (some seed) 0
  simp only [startSession, startSessionPick, List.length_take, hpool]
  omega

/-- The LCG loop ignores the `Math.random` stream (and the call
counter) whenever the seed is truthy. -/
theorem lcgGo_entropy_free (seed : Int) (hs : seed ≠ 0) :
    ∀ (m : Nat) (a : List (Option α)) (randSt : Int) (e1 e2 : Nat → Nat) (k1 k2 : Nat),
      lcgGo a seed randSt e1 k1 m = lcgGo a seed randSt e2 k2 m := by
  intro m
  induction m with
  | zero => intro a r e1 e2 k1 k2; rfl
  | succ m ih =>
    intro a r e1 e2 k1 k2
    simp only [lcgGo, if_pos hs]
    exact ih _ _ e1 e2 k1 k2

/-- C3 (amended): the xorshift variant (`src/unnamed/part_000`) is a
deterministic function of the list and any supplied seed, 0 included
(`seed ?? ...` keeps a supplied 0); the LCG variant (`src/src/App.jsx`)
is deterministic for every nonzero supplied seed, but its
`seed ? random() : Math.random()` draw consults `Math.random` when the
supplied seed is 0, so determinism holds only for nonzero seeds there.
The `Math.random` source is modelled by the explicit entropy
arguments; equal outputs for arbitrary entropy are exactly
reproducible output order. -/
theorem shuffle_deterministic (l : List α) (s : Int) (e1 e2 : Nat) (f1 f2 : Nat → Nat) :
    shuffle l (some s) e1 = shuffle l (some s) e2 ∧
      (s ≠ 0 → shuffleLCG l s f1 = shuffleLCG l s f2) := by
  refine ⟨rfl, fun hs => ?_⟩
  exact lcgGo_entropy_free s hs l.length (l.map some) s f1 f2 0 0

/-- Witness for C3 at a concrete list and seed. -/
theorem shuffle_deterministic_witness :
    (5 : Int) ≠ 0 ∧
      shuffleLCG [10, 20, 30] (5 : Int) (fun _ => 0) =
        shuffleLCG [10, 20, 30] (5 : Int) (fun _ => 123456789) :=
  ⟨by decide,
    (shuffle_deterministic [10, 20, 30] 5 0 0 (fun _ => 0) (fun _ => 123456789)).2
      (by decide)⟩

/-- Counterexample for C3 as stated: with the supplied seed 0, two runs
of the `App.jsx` shuffle on the same two-element list differ when the
ambient `Math.random` draws differ (first draw 0 versus first draw
1/2), so the output order is not a function of the list and the seed
for every supplied integer seed. -/
theorem shuffle_seed_zero_not_deterministic :
    shuffleLCG [10, 20] (0 : Int) (fun _ => 0) ≠
      shuffleLCG [10, 20] (0 : Int) (fun _ => 2147483648) := by
  decide

/-- C1, evaluation of the code at the claimed inputs.  Submitting the
correct index 2 as the very first attempt records
`tries = 1, firstTryCorrect = true`, as the claim states.  But
submitting 0 (a miss) and then 2 (the hit) also records
`tries = 1, firstTryCorrect = true` with the stored attempt log `[0]`:
`recordResult` computes `tries` from the render-time `chosenHistory`,
which holds only the misses and not the correct submission being
processed, so `Math.max(1, chosenHistory.length || 1)` evaluates to 1
after a single miss — not the 2 the claim (and the spec's
eliminate-and-retry accounting) requires. -/
theorem onChoice_miss_then_hit_eval :
    (onChoice Mode.practice 2 1300 sampleSt).results ("q1".toList) =
        some { id := "q1".toList, firstTryCorrect := true, tries := 1, timeMs := 300,
               chosenHistory := [] } ∧
      (onChoice Mode.practice 2 1300
            (onChoice Mode.practice 0 1100 sampleSt)).results ("q1".toList) =
        some { id := "q1".toList, firstTryCorrect := true, tries := 1, timeMs := 300,
               chosenHistory := [0] } := by
  constructor
  · rfl
  · rfl

/-- C4: remapping the answer index through the same permutation that
rebuilt the choices keeps the correct choice text fixed: the text at
the new `answerIndex` equals the text that was at the old
`answerIndex`. -/
theorem permuteQuestion_correct_text (q : Question) (idxs : List Nat)
    (hperm : idxs.Perm [0, 1, 2, 3]) (hai : q.answerIndex < 4)
    (_hch : q.choices.length = 4) :
    (permuteQuestion q idxs).choices.getD (permuteQuestion q idxs).answerIndex [] =
      q.choices.getD q.answerIndex [] := by
  have hlen : idxs.length = 4 := by simpa using hperm.length_eq
  have hmem : q.answerIndex ∈ idxs := hperm.mem_iff.mpr (by simp; omega)
  have hj : idxs.indexOf q.answerIndex < idxs.length := List.indexOf_lt_length.mpr hmem
  have hgd : idxs.getD (idxs.indexOf q.answerIndex) 0 = q.answerIndex := by
    rw [List.getD_eq_getElem _ _ hj, List.getElem_indexOf hj]
  have hj4 : idxs.indexOf q.answerIndex < 4 := hlen ▸ hj
  have hcases :
      idxs.indexOf q.answerIndex = 0 ∨ idxs.indexOf q.answerIndex = 1 ∨
        idxs.indexOf q.answerIndex = 2 ∨ idxs.indexOf q.answerIndex = 3 := by omega
  rcases hcases with h | h | h | h <;>
    (rw [h] at hgd;
     simp only [permuteQuestion, h, List.getD_cons_zero, List.getD_cons_succ];
     rw [hgd])

/-- Witness for C4 at a concrete question and permutation. -/
theorem permuteQuestion_correct_text_witness :
    ([2, 0, 3, 1] : List Nat).Perm [0, 1, 2, 3] ∧ sampleQ.answerIndex < 4 ∧
      sampleQ.choices.length = 4 ∧
      (permuteQuestion sampleQ [2, 0, 3, 1]).choices.getD
          (permuteQuestion sampleQ [2, 0, 3, 1]).answerIndex [] =
        sampleQ.choices.getD sampleQ.answerIndex [] :=
  ⟨by decide, by decide, by decide,
    permuteQuestion_correct_text sampleQ [2, 0, 3, 1] (by decide) (by decide) (by decide)⟩

/-- C5: when the header row (after trimming and lowercasing each cell)
lacks any of the required columns, `parseCSV` returns the empty list.
The parser is a total function here, so no exception can be raised;
the soft failure is the empty result. -/
theorem parseCSV_missing_required (text : Str) (hdr : List Str) (body : List (List Str))
    (hparse : parseCSVStream text = hdr :: body)
    (hmiss : ∃ nm ∈ requiredNames, nm ∉ hdr.map (fun h => jsToLower (jsTrim h))) :
    parseCSV text = [] := by
  have hmr : missingRequired (headerIx hdr) = true := by
    rcases hmiss with ⟨nm, hnm, hnotin⟩
    have hix : jsIndexOf (hdr.map fun h => jsToLower (jsTrim h)) nm = -1 := by
      unfold jsIndexOf
      rw [if_neg hnotin]
    simp only [requiredNames, List.mem_cons, List.not_mem_nil, or_false] at hnm
    rcases hnm with rfl | rfl | rfl | rfl | rfl | rfl | rfl
    · have h1 : (headerIx hdr).di = -1 := hix
      simp [missingRequired, h1]
    · have h1 : (headerIx hdr).qq = -1 := hix
      simp [missingRequired, h1]
    · have h1 : (headerIx hdr).ai = -1 := hix
      simp [missingRequired, h1]
    · have h1 : (headerIx hdr).bi = -1 := hix
      simp [missingRequired, h1]
    · have h1 : (headerIx hdr).ci = -1 := hix
      simp [missingRequired, h1]
    · have h1 : (headerIx hdr).dd = -1 := hix
      simp [missingRequired, h1]
    · have h1 : (headerIx hdr).co = -1 := hix
      simp [missingRequired, h1]
  simp [parseCSV, hparse, hmr]

/-- Witness for C5: a CSV text whose header lacks the `correct` column
parses to the empty list. -/
theorem parseCSV_missing_required_witness :
    parseCSV ("domain,question,a,b,c,d\nAgile,Q,w,x,y,z".toList) = [] :=
  parseCSV_missing_required _
    ["domain".toList, "question".toList, "a".toList, "b".toList, "c".toList, "d".toList]
    [["Agile".toList, "Q".toList, "w".toList, "x".toList, "y".toList, "z".toList]]
    (by decide) (by decide)

/-- The source's `reduce` with an accumulator push is the in-order
`filterMap` of the row conversion. -/
theorem foldl_push_filterMap (f : α → Option β) :
    ∀ (l : List α) (acc : List β),
      l.foldl (pushConv f) acc = acc ++ l.filterMap f := by
  intro l
  induction l with
  | nil => intro acc; simp
  | cons x xs ih =>
    intro acc
    cases hx : f x with
    | none => simp [pushConv, hx, ih, List.filterMap_cons]
    | some q => simp [pushConv, hx, ih, List.filterMap_cons]

/-- C10: `parseCSV` preserves the input order of the accepted data
rows: the record list produced by the source's accumulator `reduce`
equals the in-order image (`filterMap`) of the enumerated data rows
under the row conversion, so the parser never reorders rows. -/
theorem parseCSV_preserves_order (text : Str) : parseCSV text = parseCSVOrdered text := by
  unfold parseCSV parseCSVOrdered
  cases hps : parseCSVStream text with
  | nil => rfl
  | cons hdr body =>
    by_cases hmr : missingRequired (headerIx hdr) = true
    · simp [hmr]
    · simp only [hmr, if_false]
      simpa using foldl_push_filterMap (fun p => convRow (headerIx hdr) p.1 p.2) body.enum []

/-- The explanation and reference fields of an accepted record are the
raw (untrimmed) cells when the columns are present, and empty when
absent. -/
theorem convRow_fields {cfg : HeaderIx} {r : Nat} {row : List Str} {q : Question}
    (h : convRow cfg r row = some q) :
    q.explanation = (if 0 ≤ cfg.ex then jsAt row cfg.ex else []) ∧
      q.reference = (if 0 ≤ cfg.rf then jsAt row cfg.rf else []) := by
  unfold convRow at h
  by_cases hb : (row.all fun c => List.isEmpty (jsTrim c)) = true
  · rw [if_pos hb] at h
    exact absurd h (by simp)
  · rw [if_neg hb] at h
    cases htx : toIdx (jsAt row cfg.co) with
    | none =>
      simp only [htx] at h
      exact absurd h (by simp)
    | some ans =>
      simp only [htx] at h
      by_cases hd : jsTrim (jsAt row cfg.di) ∈ allowedDomains
      · simp only [if_pos hd, Option.some.injEq] at h
        subst h
        exact ⟨rfl, rfl⟩
      · simp only [if_neg hd] at h
        exact absurd h (by simp)

/-- C9 (amended): when the explanation (resp. reference) column is
absent from the header, every parsed record carries the empty string
for that field — the fields always exist and default to empty, but
(unlike the choice cells) they are taken verbatim from the cell and
are not trimmed. -/
theorem parseCSV_explanation_reference_default (text : Str) (hdr : List Str)
    (body : List (List Str)) (hparse : parseCSVStream text = hdr :: body) :
    ("explanation".toList ∉ hdr.map (fun h => jsToLower (jsTrim h)) →
        ∀ q ∈ parseCSV text, q.explanation = []) ∧
      ("reference".toList ∉ hdr.map (fun h => jsToLower (jsTrim h)) →
        ∀ q ∈ parseCSV text, q.reference = []) := by
  have hmem :
      ∀ q ∈ parseCSV text,
        ∃ p, p ∈ body.enum ∧ convRow (headerIx hdr) p.1 p.2 = some q := by
    intro q hq
    unfold parseCSV at hq
    simp only [hparse] at hq
    cases hmr : missingRequired (headerIx hdr) with
    | true => simp [hmr] at hq
    | false =>
      simp only [hmr, Bool.false_eq_true, if_false] at hq
      rw [foldl_push_filterMap
        (fun p : Nat × List Str => convRow (headerIx hdr) p.1 p.2)] at hq
      simpa using hq
  constructor
  · intro habs q hq
    have hex : (headerIx hdr).ex = -1 := by
      show jsIndexOf (hdr.map fun h => jsToLower (jsTrim h)) ("explanation".toList) = -1
      unfold jsIndexOf
      rw [if_neg habs]
    rcases hmem q hq with ⟨p, _, hconv⟩
    rw [(convRow_fields hconv).1, hex]
    simp
  · intro habs q hq
    have hrf : (headerIx hdr).rf = -1 := by
      show jsIndexOf (hdr.map fun h => jsToLower (jsTrim h)) ("reference".toList) = -1
      unfold jsIndexOf
      rw [if_neg habs]
    rcases hmem q hq with ⟨p, _, hconv⟩
    rw [(convRow_fields hconv).2, hrf]
    simp

/-- Witness for C9: on a CSV text without explanation and reference
columns, the parsed record (the one produced from the single data row)
has the empty explanation. -/
theorem parseCSV_explanation_default_witness :
    ({ id := "U1".toList, domain := "Agile".toList, question := "Q".toList,
       choices := ["w".toList, "x".toList, "y".toList, "z".toList], answerIndex := 0,
       explanation := [], reference := [] } : Question).explanation = [] :=
  (parseCSV_explanation_reference_default
      ("domain,question,a,b,c,d,correct\nAgile,Q,w,x,y,z,a".toList)
      ["domain".toList, "question".toList, "a".toList, "b".toList, "c".toList,
       "d".toList, "correct".toList]
      [["Agile".toList, "Q".toList, "w".toList, "x".toList, "y".toList, "z".toList,
        "a".toList]]
      (by decide)).1 (by decide) _ (by decide)

/-- Counterexample for C9 as stated: a record parsed from a CSV whose
explanation cell is surrounded by spaces keeps the spaces — the field
is not trimmed. -/
theorem parseCSV_explanation_not_trimmed :
    ∃ q ∈ parseCSV
        ("domain,question,a,b,c,d,correct,explanation\nAgile,Q,w,x,y,z,a, e ".toList),
      q.explanation ≠ jsTrim q.explanation := by
  decide

/-! ## Round trip of the serializer through the tokenizer (C2)

The tokenizer inverts the serializer for rows in which every row has
at least one non-empty cell (the tokenizer deliberately drops rows
whose fields are all empty) and no cell contains a carriage return
that the serializer would leave unquoted (the quoting test looks for
comma, quote and newline only, so a bare `\r` inside a cell is emitted
unquoted and read back as a row terminator). -/

/-- Scanning an ordinary character outside quotes appends it to the
current field. -/
theorem csvGo_step_false (c : Char) (h1 : c ≠ '"') (h2 : c ≠ ',') (h3 : c ≠ '\n')
    (h4 : c ≠ '\r') (rest cur : Str) (row : List Str) (rows : List (List Str)) :
    csvGo false (c :: rest) cur row rows = csvGo false rest (cur ++ [c]) row rows := by
  simp [csvGo, h1, h2, h3, h4]

/-- Scanning any character other than a quote inside quotes appends it
to the current field. -/
theorem csvGo_step_true (c : Char) (h1 : c ≠ '"') (rest cur : Str) (row : List Str)
    (rows : List (List Str)) :
    csvGo true (c :: rest) cur row rows = csvGo true rest (cur ++ [c]) row rows := by
  simp [csvGo, h1]

/-- A closing quote (one not followed by another quote) leaves the
quoted state. -/
theorem csvGo_quote_close (rest cur : Str) (row : List Str) (rows : List (List Str))
    (hr : rest.head? ≠ some '"') :
    csvGo true ('"' :: rest) cur row rows = csvGo false rest cur row rows := by
  cases rest with
  | nil => rfl
  | cons r rs =>
    have hne : r ≠ '"' := by simpa using hr
    simp [csvGo, hne]

/-- Scanning a run of non-special characters outside quotes appends
the run to the current field. -/
theorem csvGo_plain (s : Str)
    (hs : ∀ c ∈ s, c ≠ '"' ∧ c ≠ ',' ∧ c ≠ '\n' ∧ c ≠ '\r') :
    ∀ (rest cur : Str) (row : List Str) (rows : List (List Str)),
      csvGo false (s ++ rest) cur row rows = csvGo false rest (cur ++ s) row rows := by
  induction s with
  | nil => intro rest cur row rows; simp
  | cons c cs ih =>
    intro rest cur row rows
    obtain ⟨h1, h2, h3, h4⟩ := hs c (List.mem_cons_self c cs)
    rw [List.cons_append, csvGo_step_false c h1 h2 h3 h4,
      ih (fun d hd => hs d (List.mem_cons_of_mem c hd))]
    simp

/-- Scanning the quote-escaped content of a cell followed by its
closing quote appends the cell content and leaves the quoted state. -/
theorem csvGo_quoted (s : Str) :
    ∀ (rest cur : Str) (row : List Str) (rows : List (List Str)),
      rest.head? ≠ some '"' →
      csvGo true (quoteEsc s ++ '"' :: rest) cur row rows =
        csvGo false rest (cur ++ s) row rows := by
  induction s with
  | nil =>
    intro rest cur row rows hr
    simpa [quoteEsc] using csvGo_quote_close rest cur row rows hr
  | cons c cs ih =>
    intro rest cur row rows hr
    by_cases hc : c = '"'
    · subst hc
      show csvGo true (('"' :: '"' :: quoteEsc cs) ++ '"' :: rest) cur row rows = _
      rw [List.cons_append, List.cons_append]
      show csvGo true (quoteEsc cs ++ '"' :: rest) (cur ++ ['"']) row rows = _
      rw [ih rest (cur ++ ['"']) row rows hr]
      simp
    · have hq : quoteEsc (c :: cs) = c :: quoteEsc cs := by simp [quoteEsc, hc]
      rw [hq, List.cons_append, csvGo_step_true c hc, ih rest (cur ++ [c]) row rows hr]
      simp

/-- Scanning one encoded cell appends the cell's content to the
current field, provided the text that follows does not begin with a
quote. -/
theorem csvGo_cell (cel : Str) (hok : okCell cel) (rest cur : Str) (row : List Str)
    (rows : List (List Str)) (hr : rest.head? ≠ some '"') :
    csvGo false (encodeCell cel ++ rest) cur row rows =
      csvGo false rest (cur ++ cel) row rows := by
  by_cases hq : needsQuote cel = true
  · show csvGo false ((if needsQuote cel then _ else _) ++ rest) cur row rows = _
    rw [if_pos hq, List.cons_append, List.append_assoc]
    show csvGo true (quoteEsc cel ++ ('"' :: rest)) cur row rows = _
    exact csvGo_quoted cel rest cur row rows hr
  · have hplain : ∀ c ∈ cel, c ≠ '"' ∧ c ≠ ',' ∧ c ≠ '\n' ∧ c ≠ '\r' := by
      intro c hc
      have hns : ∀ c ∈ cel, ¬(c = '"' || c = ',' || c = '\n') = true := by
        simpa [needsQuote, List.any_eq_true] using hq
      have h1 := hns c hc
      simp only [Bool.or_eq_true, decide_eq_true_eq, not_or] at h1
      refine ⟨h1.1.1, h1.1.2, h1.2, ?_⟩
      intro hcr
      subst hcr
      exact hq (hok hc)
    show csvGo false ((if needsQuote cel then _ else _) ++ rest) cur row rows = _
    rw [if_neg hq]
    exact csvGo_plain cel hplain rest cur row rows

/-- Scanning one encoded row accumulates all but its last cell into
the row under construction and leaves the last cell as the current
field. -/
theorem csvGo_row :
    ∀ (cs : List Str) (c : Str), (∀ cel ∈ c :: cs, okCell cel) →
      ∀ (rest : Str) (row0 : List Str) (rows : List (List Str)),
        rest.head? ≠ some '"' →
        csvGo false (encodeRow (c :: cs) ++ rest) [] row0 rows =
          csvGo false rest ((c :: cs).getLast (by simp))
            (row0 ++ (c :: cs).dropLast) rows := by
  intro cs
  induction cs with
  | nil =>
    intro c hok rest row0 rows hr
    have h1 : encodeRow [c] = encodeCell c := by simp [encodeRow, joinSep]
    rw [h1, csvGo_cell c (hok c (by simp)) rest [] row0 rows hr]
    simp
  | cons c2 cs ih =>
    intro c hok rest row0 rows hr
    have h1 : encodeRow (c :: c2 :: cs) = encodeCell c ++ (',' :: encodeRow (c2 :: cs)) := by
      simp [encodeRow, joinSep]
    rw [h1, List.append_assoc, csvGo_cell c (hok c (by simp)) _ [] row0 rows (by simp)]
    show csvGo false (',' :: (encodeRow (c2 :: cs) ++ rest)) c row0 rows = _
    have hcomma :
        csvGo false (',' :: (encodeRow (c2 :: cs) ++ rest)) c row0 rows =
          csvGo false (encodeRow (c2 :: cs) ++ rest) [] (row0 ++ [c]) rows := by
      simp [csvGo]
    rw [hcomma, ih c2 (fun cel hc => hok cel (List.mem_cons_of_mem c hc)) rest
      (row0 ++ [c]) rows hr]
    simp [List.getLast_cons, List.dropLast_cons_of_ne_nil]

/-- Scanning one encoded row followed by a newline emits exactly that
row. -/
theorem csvGo_row_newline (r : List Str) (hne : r ≠ []) (hok : ∀ cel ∈ r, okCell cel)
    (hany : r.any (fun c => !c.isEmpty) = true) (rest : Str) (rows : List (List Str)) :
    csvGo false (encodeRow r ++ '\n' :: rest) [] [] rows =
      csvGo false rest [] [] (rows ++ [r]) := by
  cases r with
  | nil => exact absurd rfl hne
  | cons c cs =>
    rw [csvGo_row cs c hok ('\n' :: rest) [] rows (by simp)]
    have hnl :
        csvGo false ('\n' :: rest) ((c :: cs).getLast (by simp))
            ([] ++ (c :: cs).dropLast) rows =
          csvGo false rest [] []
            (pushRow rows ((c :: cs).dropLast ++ [(c :: cs).getLast (by simp)])) := by
      simp [csvGo]
    rw [hnl, List.dropLast_append_getLast (l := c :: cs) (by simp)]
    simp [pushRow, hany]

/-- Scanning one encoded row at the end of the input flushes exactly
that row. -/
theorem csvGo_row_eof (r : List Str) (hne : r ≠ []) (hok : ∀ cel ∈ r, okCell cel)
    (hany : r.any (fun c => !c.isEmpty) = true) (rows : List (List Str)) :
    csvGo false (encodeRow r) [] [] rows = rows ++ [r] := by
  cases r with
  | nil => exact absurd rfl hne
  | cons c cs =>
    have h0 : encodeRow (c :: cs) = encodeRow (c :: cs) ++ [] := by simp
    rw [h0, csvGo_row cs c hok [] [] rows (by simp)]
    show eofFlush ((c :: cs).getLast (by simp)) ([] ++ (c :: cs).dropLast) rows = _
    have hcond :
        (((c :: cs).getLast (by simp)).length > 0 ||
          (([] : List Str) ++ (c :: cs).dropLast).length > 0) = true := by
      cases cs with
      | nil =>
        have hcne : ¬c.isEmpty = true := by simpa using hany
        have : c ≠ [] := by simpa [List.isEmpty_iff] using hcne
        have : 0 < c.length := List.length_pos.mpr this
        simp [List.getLast, this]
      | cons c2 cs' => simp [List.dropLast_cons_of_ne_nil]
    unfold eofFlush
    rw [if_pos hcond, List.nil_append,
      List.dropLast_append_getLast (l := c :: cs) (by simp)]
    simp [pushRow, hany]

/-- Scanning the full serialized text appends all the rows to the
accumulated output. -/
theorem csvGo_toCSV (rows : List (List Str)) (h : ∀ r ∈ rows, okRow r) :
    ∀ acc, csvGo false (toCSV rows) [] [] acc = acc ++ rows := by
  induction rows with
  | nil => intro acc; simp [toCSV, joinSep, csvGo, eofFlush]
  | cons r rs ih =>
    intro acc
    obtain ⟨hany, hok⟩ := h r (by simp)
    have hne : r ≠ [] := by
      intro hr
      subst hr
      simp at hany
    cases rs with
    | nil =>
      have h1 : toCSV [r] = encodeRow r := by simp [toCSV, joinSep]
      rw [h1, csvGo_row_eof r hne hok hany acc]
    | cons r2 rs' =>
      have h1 : toCSV (r :: r2 :: rs') = encodeRow r ++ '\n' :: toCSV (r2 :: rs') := by
        simp [toCSV, joinSep]
      rw [h1, csvGo_row_newline r hne hok hany _ acc,
        ih (fun x hx => h x (List.mem_cons_of_mem r hx)) (acc ++ [r])]
      simp

/-- C2 (amended): the tokenizer recovers exactly the rows the
serializer encoded, for every row sequence in which each row has at
least one non-empty cell and no cell contains a carriage return
outside the serializer's quoting condition. -/
theorem toCSV_roundTrip (rows : List (List Str)) (h : ∀ r ∈ rows, okRow r) :
    parseCSVStream (toCSV rows) = rows := by
  unfold parseCSVStream
  simpa using csvGo_toCSV rows h []

/-- Witness for C2 on rows exercising the quoting rules (comma, quote
and newline in one cell). -/
theorem toCSV_roundTrip_witness :
    parseCSVStream (toCSV [["a".toList, "b,\"x\"\ny".toList], ["c".toList]]) =
      [["a".toList, "b,\"x\"\ny".toList], ["c".toList]] :=
  toCSV_roundTrip [["a".toList, "b,\"x\"\ny".toList], ["c".toList]] (by decide)

/-- Counterexample for C2 as stated: a row whose only cell is empty is
dropped by the tokenizer, and a cell holding a bare carriage return is
emitted unquoted and read back as a row break, so the round trip fails
on such inputs. -/
theorem toCSV_roundTrip_counterexample :
    parseCSVStream (toCSV [[[]]]) ≠ [[[]]] ∧
      parseCSVStream (toCSV [[['a', '\r', 'b']]]) ≠ [[['a', '\r', 'b']]] := by
  decide

/-! ## Shape of the exported summary (C7) -/

/-- Characters of the escaped cell content are the original characters
or added quotes. -/
theorem mem_quoteEsc {c : Char} : ∀ (s : Str), c ∈ quoteEsc s → c = '"' ∨ c ∈ s := by
  intro s
  induction s with
  | nil => intro h; simp [quoteEsc] at h
  | cons a as ih =>
    intro h
    by_cases ha : a = '"'
    · subst ha
      simp only [quoteEsc, if_pos rfl] at h
      rcases List.mem_cons.mp h with h1 | h1
      · exact Or.inl h1
      · rcases List.mem_cons.mp h1 with h2 | h2
        · exact Or.inl h2
        · rcases ih h2 with h3 | h3
          · exact Or.inl h3
          · exact Or.inr (List.mem_cons_of_mem _ h3)
    · simp only [quoteEsc, if_neg ha] at h
      rcases List.mem_cons.mp h with h1 | h1
      · exact Or.inr (h1 ▸ List.mem_cons_self a as)
      · rcases ih h1 with h3 | h3
        · exact Or.inl h3
        · exact Or.inr (List.mem_cons_of_mem _ h3)

/-- Characters of an encoded cell are the cell's characters or quotes. -/
theorem mem_encodeCell {c : Char} {cel : Str} (h : c ∈ encodeCell cel) :
    c = '"' ∨ c ∈ cel := by
  unfold encodeCell at h
  by_cases hq : needsQuote cel = true
  · rw [if_pos hq] at h
    rcases List.mem_cons.mp h with h1 | h1
    · exact Or.inl h1
    · rcases List.mem_append.mp h1 with h2 | h2
      · exact mem_quoteEsc cel h2
      · exact Or.inl (by simpa using h2)
  · rw [if_neg hq] at h
    exact Or.inr h

/-- Characters of a joined row come from the separator or from a
cell. -/
theorem mem_joinSep {c : Char} (sep : Str) :
    ∀ (l : List Str), c ∈ joinSep sep l → c ∈ sep ∨ ∃ x ∈ l, c ∈ x := by
  intro l
  induction l with
  | nil => intro h; simp [joinSep] at h
  | cons x xs ih =>
    cases xs with
    | nil =>
      intro h
      simp only [joinSep] at h
      exact Or.inr ⟨x, by simp, h⟩
    | cons y ys =>
      intro h
      simp only [joinSep, List.append_assoc, List.mem_append] at h
      rcases h with hx | hsep | hrest
      · exact Or.inr ⟨x, by simp, hx⟩
      · exact Or.inl hsep
      · rcases ih hrest with hsep | ⟨z, hz, hcz⟩
        · exact Or.inl hsep
        · exact Or.inr ⟨z, List.mem_cons_of_mem x hz, hcz⟩

/-- An encoded row contains no newline when none of its cells does
(escaping introduces only quote characters). -/
theorem newline_notin_encodeRow (r : List Str) (h : ∀ cell ∈ r, '\n' ∉ cell) :
    '\n' ∉ encodeRow r := by
  intro hmem
  rcases mem_joinSep [','] (r.map encodeCell) hmem with hsep | ⟨x, hx, hcx⟩
  · simp at hsep
  · rcases List.mem_map.mp hx with ⟨cel, hcel, rfl⟩
    rcases mem_encodeCell hcx with h' | h'
    · exact absurd h' (by decide)
    · exact h cel hcel h'

/-- C7 (amended): for a session of exactly one question with a stored
result, when no exported cell contains a newline or a carriage return
the exported text has exactly 2 lines; tokenizing it back gives
exactly the header row and the data row; and the data row's `correct`
column (index 7) is the literal text of the question's correct
choice. -/
theorem exportSummary_one_question (q : Question) (res : Str → Option ResultRec)
    (r : ResultRec) (hres : res q.id = some r)
    (hnl : ∀ cell ∈ exportRow res q, '\n' ∉ cell ∧ '\r' ∉ cell) :
    countLines (exportSummaryText [q] res) = 2 ∧
      parseCSVStream (exportSummaryText [q] res) = [exportHeader, exportRow res q] ∧
      (exportRow res q).getD 7 [] = q.choices.getD q.answerIndex [] := by
  have hrow :
      exportRow res q =
        [q.id, q.domain, boolStr r.firstTryCorrect, natStr r.tries, natStr r.timeMs,
         joinBar r.chosenHistory, q.question, q.choices.getD q.answerIndex [],
         q.explanation] := by
    simp [exportRow, hres]
  have hany : (exportRow res q).any (fun c => !c.isEmpty) = true := by
    rw [hrow]
    cases r.firstTryCorrect <;> simp [boolStr]
  have htext :
      exportSummaryText [q] res =
        encodeRow exportHeader ++ '\n' :: encodeRow (exportRow res q) := by
    simp [exportSummaryText, toCSV, joinSep]
  refine ⟨?_, ?_, ?_⟩
  · unfold countLines
    rw [htext, List.count_append]
    have h1 : List.count '\n' (encodeRow exportHeader) = 0 :=
      List.count_eq_zero.mpr (by decide)
    have h2 : List.count '\n' (encodeRow (exportRow res q)) = 0 :=
      List.count_eq_zero.mpr
        (newline_notin_encodeRow _ (fun cell hc => (hnl cell hc).1))
    rw [h1]
    simp [h2]
  · have hok : ∀ row ∈ [exportHeader, exportRow res q], okRow row := by
      intro row hrw
      rcases List.mem_cons.mp hrw with rfl | hrw2
      · exact ⟨by decide, by decide⟩
      · rcases List.mem_cons.mp hrw2 with rfl | hrw3
        · exact ⟨hany, fun cel hcel hcr => absurd hcr ((hnl cel hcel).2)⟩
        · exact absurd hrw3 (List.not_mem_nil row)
    have := toCSV_roundTrip [exportHeader, exportRow res q] hok
    simpa [exportSummaryText] using this
  · rw [hrow]
    rfl

/-- Witness for C7 at a concrete finished one-question session. -/
theorem exportSummary_one_question_witness :
    countLines
        (exportSummaryText [sampleQ]
          (fun k => if k = "q1".toList then
            some { id := "q1".toList, firstTryCorrect := true, tries := 1, timeMs := 5,
                   chosenHistory := [2] } else none)) = 2 ∧
      parseCSVStream
          (exportSummaryText [sampleQ]
            (fun k => if k = "q1".toList then
              some { id := "q1".toList, firstTryCorrect := true, tries := 1, timeMs := 5,
                     chosenHistory := [2] } else none)) =
        [exportHeader,
         exportRow
           (fun k => if k = "q1".toList then
             some { id := "q1".toList, firstTryCorrect := true, tries := 1, timeMs := 5,
                    chosenHistory := [2] } else none) sampleQ] ∧
      (exportRow
          (fun k => if k = "q1".toList then
            some { id := "q1".toList, firstTryCorrect := true, tries := 1, timeMs := 5,
                   chosenHistory := [2] } else none) sampleQ).getD 7 [] =
        sampleQ.choices.getD sampleQ.answerIndex [] :=
  exportSummary_one_question sampleQ _
    { id := "q1".toList, firstTryCorrect := true, tries := 1, timeMs := 5,
      chosenHistory := [2] }
    (by decide) (by decide)

/-- Counterexample for C7 as stated: when the single question's stem
itself contains a newline, the serializer quotes the stem but the raw
newline stays in the text, so the export has 3 physical lines, not
2. -/
theorem exportSummary_newline_counterexample :
    countLines
        (exportSummaryText
          [{ id := "q1".toList, domain := "People".toList,
             question := ['a', '\n', 'b'],
             choices := ["w".toList, "x".toList, "y".toList, "z".toList],
             answerIndex := 0, explanation := [], reference := [] }]
          (fun k => if k = "q1".toList then
            some { id := "q1".toList, firstTryCorrect := true, tries := 1, timeMs := 5,
                   chosenHistory := [0] } else none)) ≠ 2 := by
  decide

end Trainer
